import Mathlib

/-!
Shallow embedding of `pyletterpress.py`: a Letterpress word finder.

The program reads a rack of letters, filters a dictionary file, runs a
matcher (`evaluator`) over each word in fixed-size blocks through a worker
pool, collects matches in a `SortedCollection` keyed by word length, and
periodically reports the top 10 and a progress percentage.

Words and racks are modelled as `List Char` (the program indexes and pops
individual characters of Python strings/lists), queues as `List`, strings of
the dictionary file as `String`.
-/

namespace Pyletterpress

/-! ## Matcher (`evaluator`, pyletterpress.py lines 201-209)

Python:
```
def evaluator(args):
    word, letters, queue = args
    common = len([letters.pop(letters.index(x)) for x in word if x in letters])
    if common == len(word):
        queue.put(word)
        return word
    else:
        return None
```
The comprehension walks `word` left to right; for each character `x` it tests
membership in the *current* (mutated) `letters`, and on success pops the first
occurrence (`letters.pop(letters.index(x))`).  `evalChars` returns the number
of popped characters (`common`) together with the final state of `letters`.
-/

/-- One pass of the list comprehension inside `evaluator`: returns
`(common, letters_after)`. -/
def evalChars : List Char → List Char → Nat × List Char
  | [], letters => (0, letters)
  | x :: xs, letters =>
    if x ∈ letters then
      let rest := evalChars xs (letters.eraseIdx (letters.indexOf x))
      (rest.1 + 1, rest.2)
    else
      evalChars xs letters

/-- The matcher: returns `(return value, letters_after, queue_after)`.
On a full match the word is enqueued on the result channel and returned;
otherwise `none` is returned and the queue is untouched. -/
def evaluator (word letters : List Char) (queue : List (List Char)) :
    Option (List Char) × List Char × List (List Char) :=
  let r := evalChars word letters
  if r.1 = word.length then (some word, r.2, queue ++ [word])
  else (none, r.2, queue)

theorem evalChars_fst_le (w : List Char) : ∀ l : List Char, (evalChars w l).1 ≤ w.length := by
  induction w with
  | nil => intro l; simp [evalChars]
  | cons x xs ih =>
    intro l
    simp only [evalChars, List.length_cons]
    split
    · exact Nat.succ_le_succ (ih _)
    · exact Nat.le_succ_of_le (ih l)

theorem evalChars_fst_eq_iff (w : List Char) :
    ∀ l : List Char, (evalChars w l).1 = w.length ↔ ∀ c, w.count c ≤ l.count c := by
  induction w with
  | nil => intro l; simp [evalChars]
  | cons x xs ih =>
    intro l
    by_cases hx : x ∈ l
    · have hpos : 0 < l.count x := List.count_pos_iff.mpr hx
      simp only [evalChars, if_pos hx, List.eraseIdx_indexOf_eq_erase, List.length_cons,
        Nat.add_right_cancel_iff, ih]
      constructor
      · intro h c
        have hc := h c
        rcases eq_or_ne c x with rfl | hne
        · rw [List.count_erase_self] at hc
          rw [List.count_cons_self]
          omega
        · rw [List.count_erase_of_ne hne] at hc
          rw [List.count_cons_of_ne hne]
          exact hc
      · intro h c
        rcases eq_or_ne c x with rfl | hne
        · have hc := h c
          rw [List.count_cons_self] at hc
          rw [List.count_erase_self]
          omega
        · have hc := h c
          rw [List.count_cons_of_ne hne] at hc
          rw [List.count_erase_of_ne hne]
          exact hc
    · have hzero : l.count x = 0 := List.count_eq_zero.mpr hx
      simp only [evalChars, if_neg hx, List.length_cons]
      constructor
      · intro h
        exact absurd h (Nat.ne_of_lt (Nat.lt_succ_of_le (evalChars_fst_le xs l)))
      · intro h
        have hc := h x
        rw [List.count_cons_self, hzero] at hc
        omega

/-- C1: a single call to the matcher on word `w` with its own fresh copy
of the rack list `l` succeeds — counts every character as satisfied, returns
the word and enqueues it on the result channel — if and only if, for every
character `c` occurring in `w`, the number of occurrences of `c` in `w` is at
most the number of occurrences of `c` in `l`. -/
theorem C1_matcher_submultiset (w l : List Char) (q : List (List Char)) :
    ((evaluator w l q).1 = some w ∧ (evaluator w l q).2.2 = q ++ [w]) ↔
      ∀ c ∈ w, w.count c ≤ l.count c := by
  have hiff : (evalChars w l).1 = w.length ↔ ∀ c ∈ w, w.count c ≤ l.count c := by
    rw [evalChars_fst_eq_iff]
    constructor
    · intro h c _; exact h c
    · intro h c
      by_cases hc : c ∈ w
      · exact h c hc
      · rw [List.count_eq_zero.mpr hc]; exact Nat.zero_le _
  unfold evaluator
  constructor
  · intro h
    by_cases hm : (evalChars w l).1 = w.length
    · exact hiff.mp hm
    · rw [if_neg hm] at h
      exact absurd h.1 (by simp)
  · intro h
    rw [if_pos (hiff.mpr h)]
    exact ⟨rfl, rfl⟩

theorem evalChars_snd_count (w : List Char) :
    ∀ l : List Char, (evalChars w l).1 = w.length →
      ∀ c, (evalChars w l).2.count c = l.count c - w.count c := by
  induction w with
  | nil => intro l _ c; simp [evalChars]
  | cons x xs ih =>
    intro l h c
    by_cases hx : x ∈ l
    · simp only [evalChars, if_pos hx, List.eraseIdx_indexOf_eq_erase, List.length_cons,
        Nat.add_right_cancel_iff] at h ⊢
      have hc := ih (l.erase x) h c
      rcases eq_or_ne c x with rfl | hne
      · rw [List.count_erase_self] at hc
        rw [hc, List.count_cons_self]
        omega
      · rw [List.count_erase_of_ne hne] at hc
        rw [hc, List.count_cons_of_ne hne]
    · exfalso
      simp only [evalChars, if_neg hx, List.length_cons] at h
      exact absurd h (Nat.ne_of_lt (Nat.lt_succ_of_le (evalChars_fst_le xs l)))

/-- C2 counterexample: the matcher mutates the letter list it is handed:
evaluating `"a"` against the rack list `['a']` empties the list, and a
subsequent evaluation of `"a"` against that same (mutated) list yields a
different outcome than evaluation against a fresh copy of `['a']`.  So the
claim that a call leaves the given rack list unchanged is false. -/
theorem C2_counterexample :
    (evaluator ['a'] ['a'] []).2.1 ≠ ['a'] ∧
    (evaluator ['a'] (evaluator ['a'] ['a'] []).2.1 []).1 ≠ (evaluator ['a'] ['a'] []).1 := by
  decide

/-- C2 amended: a call to the matcher consumes the matched letters from
the very list it was given: on a successful match of `w`, the list afterwards
holds `count c l - count c w` copies of each character `c`.  Hence calls are
independent only when each receives its own fresh copy of the rack list (as
the worker pool's argument serialization provides), not when they share one
list. -/
theorem C2_matcher_consumes (w l : List Char) (q : List (List Char))
    (h : (evaluator w l q).1 = some w) :
    ∀ c, (evaluator w l q).2.1.count c = l.count c - w.count c := by
  intro c
  by_cases hm : (evalChars w l).1 = w.length
  · simp only [evaluator, if_pos hm]
    exact evalChars_snd_count w l hm c
  · exfalso
    simp only [evaluator, if_neg hm] at h
    exact absurd h (by simp)

theorem C2_matcher_consumes_witness :
    (evaluator ['a'] ['a', 'b'] []).2.1.count 'a' =
      (['a', 'b'] : List Char).count 'a' - (['a'] : List Char).count 'a' :=
  C2_matcher_consumes ['a'] ['a', 'b'] [] (by decide) 'a'

/-! ## Safety of the matcher (C10)

`letters.index(x)` raises `ValueError` when `x` is absent.  To settle whether
the `evaluator` can raise, we re-embed it with the index lookup made fallible:
any lookup outside the guard would surface as an `Except.error`. -/

/-- Variant of `evalChars` with the `letters.index(x)` lookup made explicit: an
out-of-range index (Python's `ValueError`) becomes an error value. -/
def evalCharsChecked : List Char → List Char → Except String (Nat × List Char)
  | [], letters => Except.ok (0, letters)
  | x :: xs, letters =>
    if x ∈ letters then
      if letters.indexOf x < letters.length then
        match evalCharsChecked xs (letters.eraseIdx (letters.indexOf x)) with
        | Except.ok r => Except.ok (r.1 + 1, r.2)
        | Except.error e => Except.error e
      else Except.error "ValueError"
    else evalCharsChecked xs letters

/-- Variant of `evaluator` built on the fallible `evalCharsChecked`. -/
def evaluatorChecked (word letters : List Char) (queue : List (List Char)) :
    Except String (Option (List Char) × List Char × List (List Char)) :=
  match evalCharsChecked word letters with
  | Except.ok r =>
    if r.1 = word.length then Except.ok (some word, r.2, queue ++ [word])
    else Except.ok (none, r.2, queue)
  | Except.error e => Except.error e

theorem evalCharsChecked_eq_ok (w : List Char) :
    ∀ l : List Char, evalCharsChecked w l = Except.ok (evalChars w l) := by
  induction w with
  | nil => intro l; rfl
  | cons x xs ih =>
    intro l
    by_cases hx : x ∈ l
    · have hidx : l.indexOf x < l.length := List.indexOf_lt_length.mpr hx
      simp only [evalCharsChecked, evalChars, if_pos hx, if_pos hidx, ih]
    · simp only [evalCharsChecked, evalChars, if_neg hx, ih]

/-- C10: for every word and letter list, a single sequential call to
`evaluator` is total and never raises: the `letters.index(x)` lookup only runs
under the guard `x in letters`, so the `ValueError` branch is unreachable, and
the call always returns either the word itself (on a full match) or `None`. -/
theorem C10_evaluator_total (w l : List Char) (q : List (List Char)) :
    evaluatorChecked w l q = Except.ok (evaluator w l q) ∧
    ((evaluator w l q).1 = some w ∨ (evaluator w l q).1 = none) := by
  have hck := evalCharsChecked_eq_ok w l
  constructor
  · simp only [evaluatorChecked, hck, evaluator]
    split <;> rfl
  · by_cases hm : (evalChars w l).1 = w.length
    · exact Or.inl (by simp [evaluator, hm])
    · exact Or.inr (by simp [evaluator, hm])

/-! ## Dictionary loading (pyletterpress.py lines 249-250)

Python:
```
with open('wordsEn.txt') as dictionary:
    words = set(word.strip().lower() for word in dictionary
                if len(word) <= len(letters) and len(word) > 1)
```
Iterating a file yields the raw lines, trailing newline included; the length
filter is applied to the *raw* line, the strip/lower normalisation only
afterwards, in the generator's output expression.  Lines are modelled as
`List Char` (like words and racks elsewhere in this embedding); `str.strip()`
and `str.lower()` are modelled character-wise. -/

/-- Python `str.strip()`: drop whitespace from both ends. -/
def pyStrip (s : List Char) : List Char :=
  ((s.dropWhile Char.isWhitespace).reverse.dropWhile Char.isWhitespace).reverse

/-- Python `str.lower()`: lowercase every character. -/
def pyLower (s : List Char) : List Char := s.map Char.toLower

/-- The dictionary set, as built by the program: filter raw lines by raw
length, then strip + lowercase, then deduplicate (Python `set`). -/
def loadWords (lines : List (List Char)) (letters : List Char) : List (List Char) :=
  ((lines.filter (fun w => w.length ≤ letters.length && 1 < w.length)).map
    (fun w => pyLower (pyStrip w))).dedup

/-- C3 counterexample: with rack `"ab"` and the single dictionary line
`"ab\n"`, the trimmed lowercased word `"ab"` satisfies the claimed bound
`1 < 2 <= 2`, yet the program excludes it: the filter tests the raw line
(length 3, newline included) before trimming. -/
theorem C3_counterexample :
    ['a', 'b'] ∉ loadWords [['a', 'b', '\n']] ['a', 'b'] ∧
    pyLower (pyStrip ['a', 'b', '\n']) = ['a', 'b'] ∧
    1 < (pyStrip ['a', 'b', '\n']).length ∧
    (pyStrip ['a', 'b', '\n']).length ≤ (['a', 'b'] : List Char).length := by
  decide

/-- C3 amended: the loaded dictionary is duplicate-free and contains
exactly the stripped, lowercased forms of those raw lines whose *untrimmed*
length (newline and surrounding whitespace included) lies in
`1 < raw length <= length(rack)`; the bound is applied to the raw line before
trimming, not to the trimmed word. -/
theorem C3_dictionary_filter (lines : List (List Char)) (letters : List Char) :
    (loadWords lines letters).Nodup ∧
    ∀ w, w ∈ loadWords lines letters ↔
      ∃ line ∈ lines, line.length ≤ letters.length ∧ 1 < line.length ∧
        w = pyLower (pyStrip line) := by
  refine ⟨List.nodup_dedup _, fun w => ?_⟩
  simp only [loadWords, List.mem_dedup, List.mem_map, List.mem_filter,
    Bool.and_eq_true, decide_eq_true_eq]
  constructor
  · rintro ⟨line, ⟨hmem, hlen, hgt⟩, rfl⟩
    exact ⟨line, hmem, hlen, hgt, rfl⟩
  · rintro ⟨line, hmem, hlen, hgt, rfl⟩
    exact ⟨line, ⟨hmem, hlen, hgt⟩, rfl⟩

/-! ## Top-K reporter (`top_words`, pyletterpress.py lines 211-222)

Python loop body:
```
if(len(sorted_set) > 0):
    test = list(reversed(sorted_set[-10:]))
    if 0 in [item in top for item in test]:
        top = test
        log.info(...)
```
`0 in [item in top for item in test]` holds iff some membership test came out
`False` (Python's `False == 0`), i.e. iff some item of `test` is not in `top`.
Words are `String` here (only whole-word identity matters). -/

/-- Python `list(reversed(sorted_set[-10:]))`: the last ten items, reversed. -/
def topCandidate (items : List String) : List String :=
  (items.drop (items.length - 10)).reverse

/-- The reporter's trigger `0 in [item in top for item in test]`. -/
def topChanged (test top : List String) : Bool :=
  test.any (fun item => !(top.contains item))

/-- One iteration of the `top_words` polling loop body: from the current
collection contents and the previously reported baseline, the new baseline
and whether a report line was emitted. -/
def topStep (items top : List String) : List String × Bool :=
  if 0 < items.length then
    let test := topCandidate items
    if topChanged test top then (test, true) else (top, false)
  else (top, false)

/-- C4 counterexample: with baseline `["ab", "cd"]` and current candidate
`["ab"]`, the two differ by set membership (`"cd"` was removed), yet the
reporter emits nothing: every element of the candidate is still in the
baseline, and that is all the code checks. -/
theorem C4_counterexample :
    (topStep ["ab"] ["ab", "cd"]).2 = false ∧
    "cd" ∈ (["ab", "cd"] : List String) ∧ "cd" ∉ topCandidate ["ab"] := by
  decide

/-- C4 amended: the reporter emits a new report iff the collection is
non-empty and some word of `candidate = reverse(tail(10))` is missing from
the previously reported baseline.  A candidate whose membership equals the
baseline's is never re-reported, and an added element triggers a report, but
a pure removal (candidate a strict subset of the baseline) does not. -/
theorem C4_report_condition (items top : List String) :
    (topStep items top).2 = true ↔
      0 < items.length ∧ ∃ w ∈ topCandidate items, w ∉ top := by
  unfold topStep
  by_cases h : 0 < items.length
  · cases hc : topChanged (topCandidate items) top with
    | true =>
      simp only [if_pos h, hc, if_true]
      simpa [topChanged, List.any_eq_true, h] using hc
    | false =>
      simp only [if_pos h, hc, if_false]
      have hall : ∀ w ∈ topCandidate items, w ∈ top := by
        intro w hw
        by_contra hnot
        have : topChanged (topCandidate items) top = true := by
          simp only [topChanged, List.any_eq_true]
          exact ⟨w, hw, by simpa using hnot⟩
        simp [hc] at this
      refine iff_of_false (by simp) ?_
      rintro ⟨-, w, hw, hnot⟩
      exact hnot (hall w hw)
  · simp [if_neg h, h]

/-! ## Ordered top collection (`SortedCollection`, pyletterpress.py lines 9-199)

The class keeps two parallel lists, `_keys` and `_items`, with
`_keys[i] == key(_items[i])` and `_keys` sorted.  In this program items are
words and the key function is `lambda word: len(word)`.

`__init__` sorts `(key(item), item)` pairs with Python's tuple comparison
(key first, then the string); `insert` / `insert_right` find the position
with stdlib `bisect_left` / `bisect_right` and splice into both lists;
`remove` locates the item via `index` (a `bisect` window plus a linear scan,
`ValueError` — here `none` — when absent) and deletes that position from both
lists.  Python's `sorted` and `bisect` are stdlib collaborators: `sorted` is
modelled by the stable `List.insertionSort`, and `bisect_left`/`bisect_right`
by their specification on sorted lists (the number of keys strictly below /
at most the probe). -/

/-- The key function the program uses: `key=lambda word: len(word)`. -/
def keyFn (w : String) : Nat := w.length

/-- Python tuple comparison on decorated `(key(item), item)` pairs. -/
def decoratedLe (p q : Nat × String) : Prop :=
  p.1 < q.1 ∨ (p.1 = q.1 ∧ p.2 ≤ q.2)

instance : DecidableRel decoratedLe := fun p q => by
  unfold decoratedLe; exact inferInstance

instance : IsTotal (Nat × String) decoratedLe where
  total p q := by
    rcases Nat.lt_trichotomy p.1 q.1 with h | h | h
    · exact Or.inl (Or.inl h)
    · rcases le_total p.2 q.2 with h2 | h2
      · exact Or.inl (Or.inr ⟨h, h2⟩)
      · exact Or.inr (Or.inr ⟨h.symm, h2⟩)
    · exact Or.inr (Or.inl h)

instance : IsTrans (Nat × String) decoratedLe where
  trans p q u hpq hqu := by
    rcases hpq with h1 | ⟨h1, h1'⟩ <;> rcases hqu with h2 | ⟨h2, h2'⟩
    · exact Or.inl (h1.trans h2)
    · exact Or.inl (lt_of_lt_of_eq h1 h2)
    · exact Or.inl (lt_of_eq_of_lt h1 h2)
    · exact Or.inr ⟨h1.trans h2, h1'.trans h2'⟩

/-- Python stdlib `bisect_left` on a sorted key list: the leftmost insertion
point, i.e. the number of keys strictly below `k`. -/
def bisect_left (keys : List Nat) (k : Nat) : Nat :=
  (keys.takeWhile (fun a => a < k)).length

/-- Python stdlib `bisect_right` on a sorted key list: the rightmost
insertion point, i.e. the number of keys at most `k`. -/
def bisect_right (keys : List Nat) (k : Nat) : Nat :=
  (keys.takeWhile (fun a => a ≤ k)).length

/-- The two parallel lists of the class. -/
structure SortedCollection where
  keys : List Nat
  items : List String
deriving DecidableEq

namespace SortedCollection

/-- Python `__init__(iterable, key)`: decorate, sort by tuple order, undecorate. -/
def init (iterable : List String) : SortedCollection :=
  let decorated :=
    List.insertionSort decoratedLe (iterable.map (fun item => (keyFn item, item)))
  { keys := decorated.map Prod.fst, items := decorated.map Prod.snd }

/-- Python `insert`: splice at `bisect_left` (equal keys: add to the left). -/
def insert (c : SortedCollection) (item : String) : SortedCollection :=
  let k := keyFn item
  let i := bisect_left c.keys k
  { keys := c.keys.insertIdx i k, items := c.items.insertIdx i item }

/-- Python `insert_right`: splice at `bisect_right` (equal keys: add to the right). -/
def insert_right (c : SortedCollection) (item : String) : SortedCollection :=
  let k := keyFn item
  let i := bisect_right c.keys k
  { keys := c.keys.insertIdx i k, items := c.items.insertIdx i item }

/-- Python `index`: position of an item inside the equal-key window, `none` for
Python's `ValueError`. -/
def index (c : SortedCollection) (item : String) : Option Nat :=
  let k := keyFn item
  let i := bisect_left c.keys k
  let j := bisect_right c.keys k
  let seg := (c.items.drop i).take (j - i)
  if item ∈ seg then some (seg.indexOf item + i) else none

/-- Python `remove`: delete the position found by `index` from both lists. -/
def remove (c : SortedCollection) (item : String) : Option SortedCollection :=
  match c.index item with
  | some i => some { keys := c.keys.eraseIdx i, items := c.items.eraseIdx i }
  | none => none

end SortedCollection

/-- The class invariant: the key list mirrors `key` of the item list, and is
sorted ascending. -/
def Inv (c : SortedCollection) : Prop :=
  c.keys = c.items.map keyFn ∧ c.keys.Pairwise (· ≤ ·)

instance (c : SortedCollection) : Decidable (Inv c) := by
  unfold Inv; infer_instance

theorem map_insertIdx (f : String → Nat) :
    ∀ (n : Nat) (a : String) (l : List String),
      (l.insertIdx n a).map f = (l.map f).insertIdx n (f a) := by
  intro n
  induction n with
  | zero => intro a l; simp [List.insertIdx_zero]
  | succ n ih =>
    intro a l
    cases l with
    | nil => simp [List.insertIdx_succ_nil]
    | cons x xs => simp [List.insertIdx_succ_cons, ih]

theorem map_eraseIdx (f : String → Nat) :
    ∀ (l : List String) (n : Nat), (l.eraseIdx n).map f = (l.map f).eraseIdx n := by
  intro l
  induction l with
  | nil => intro n; simp
  | cons x xs ih =>
    intro n
    cases n with
    | zero => simp [List.eraseIdx]
    | succ n => simp [List.eraseIdx, ih]

theorem pairwise_insertIdx_takeWhile (p : Nat → Bool) (k : Nat)
    (hp : ∀ a, p a = true → a ≤ k) (hn : ∀ a, p a = false → k ≤ a) :
    ∀ l : List Nat, l.Pairwise (· ≤ ·) →
      (l.insertIdx (l.takeWhile p).length k).Pairwise (· ≤ ·) := by
  intro l
  induction l with
  | nil => intro _; simp
  | cons x xs ih =>
    intro h
    rcases List.pairwise_cons.mp h with ⟨hx, hxs⟩
    cases hpx : p x with
    | true =>
      rw [List.takeWhile_cons_of_pos hpx]
      simp only [List.length_cons, List.insertIdx_succ_cons]
      refine List.pairwise_cons.mpr ⟨?_, ih hxs⟩
      intro y hy
      have hlen : (xs.takeWhile p).length ≤ xs.length :=
        (List.takeWhile_sublist p).length_le
      rcases (List.mem_insertIdx hlen).mp hy with rfl | hy'
      · exact hp x hpx
      · exact hx y hy'
    | false =>
      rw [List.takeWhile_cons_of_neg (by simp [hpx])]
      simp only [List.length_nil, List.insertIdx_zero]
      refine List.pairwise_cons.mpr ⟨?_, h⟩
      intro y hy
      rcases List.mem_cons.mp hy with rfl | hy'
      · exact hn _ hpx
      · exact (hn x hpx).trans (hx y hy')

theorem init_inv (l : List String) : Inv (SortedCollection.init l) := by
  constructor
  · show (List.insertionSort decoratedLe _).map Prod.fst =
      ((List.insertionSort decoratedLe _).map Prod.snd).map keyFn
    rw [List.map_map]
    apply List.map_congr_left
    intro p hp
    have hp' : p ∈ l.map (fun item => (keyFn item, item)) :=
      (List.perm_insertionSort decoratedLe _).subset hp
    rcases List.mem_map.mp hp' with ⟨item, _, rfl⟩
    rfl
  · show ((List.insertionSort decoratedLe _).map Prod.fst).Pairwise (· ≤ ·)
    rw [List.pairwise_map]
    refine (List.sorted_insertionSort decoratedLe _).imp ?_
    intro p q hpq
    rcases hpq with h | ⟨h, _⟩
    · exact Nat.le_of_lt h
    · exact Nat.le_of_eq h

theorem insert_inv (c : SortedCollection) (w : String) (h : Inv c) :
    Inv (c.insert w) := by
  obtain ⟨hcoup, hsort⟩ := h
  constructor
  · show c.keys.insertIdx _ (keyFn w) = (c.items.insertIdx _ w).map keyFn
    rw [map_insertIdx, ← hcoup]
  · show (c.keys.insertIdx (bisect_left c.keys (keyFn w)) (keyFn w)).Pairwise (· ≤ ·)
    exact pairwise_insertIdx_takeWhile (fun a => decide (a < keyFn w)) (keyFn w)
      (fun a ha => Nat.le_of_lt (of_decide_eq_true ha))
      (fun a ha => Nat.le_of_not_lt (of_decide_eq_false ha))
      c.keys hsort

theorem insert_right_inv (c : SortedCollection) (w : String) (h : Inv c) :
    Inv (c.insert_right w) := by
  obtain ⟨hcoup, hsort⟩ := h
  constructor
  · show c.keys.insertIdx _ (keyFn w) = (c.items.insertIdx _ w).map keyFn
    rw [map_insertIdx, ← hcoup]
  · show (c.keys.insertIdx (bisect_right c.keys (keyFn w)) (keyFn w)).Pairwise (· ≤ ·)
    exact pairwise_insertIdx_takeWhile (fun a => decide (a ≤ keyFn w)) (keyFn w)
      (fun a ha => of_decide_eq_true ha)
      (fun a ha => Nat.le_of_lt (Nat.lt_of_not_le (of_decide_eq_false ha)))
      c.keys hsort

theorem remove_inv (c : SortedCollection) (w : String) (c2 : SortedCollection)
    (h : Inv c) (hr : c.remove w = some c2) : Inv c2 := by
  obtain ⟨hcoup, hsort⟩ := h
  unfold SortedCollection.remove at hr
  cases hidx : c.index w with
  | none => rw [hidx] at hr; cases hr
  | some i =>
    rw [hidx] at hr
    obtain rfl := Option.some.inj hr
    constructor
    · show c.keys.eraseIdx i = (c.items.eraseIdx i).map keyFn
      rw [map_eraseIdx, ← hcoup]
    · exact List.Pairwise.sublist (List.eraseIdx_sublist c.keys i) hsort

theorem inv_items_pairwise (c : SortedCollection) (h : Inv c) :
    c.items.Pairwise (fun a b => keyFn a ≤ keyFn b) := by
  have hs := h.2
  rw [h.1, List.pairwise_map] at hs
  exact hs

/-- C5: every operation of the Ordered Top Collection — construction from
an iterable, `insert`, `insert_right` and `remove` — preserves the sort
invariant: the parallel key list mirrors `key = len` of the item list and is
sorted ascending, so at every observable point, for positions `i < j`,
`key(item_i) ≤ key(item_j)`. -/
theorem C5_sorted_collection_invariant :
    (∀ l, Inv (SortedCollection.init l)) ∧
    (∀ c w, Inv c → Inv (SortedCollection.insert c w)) ∧
    (∀ c w, Inv c → Inv (SortedCollection.insert_right c w)) ∧
    (∀ c w c2, Inv c → SortedCollection.remove c w = some c2 → Inv c2) ∧
    (∀ c, Inv c → c.items.Pairwise (fun a b => keyFn a ≤ keyFn b)) :=
  ⟨init_inv, insert_inv, insert_right_inv, remove_inv, inv_items_pairwise⟩

theorem C5_sorted_collection_invariant_witness :
    Inv (SortedCollection.insert ⟨[1, 3], ["a", "abc"]⟩ "xy") ∧
    Inv (SortedCollection.insert_right ⟨[1, 3], ["a", "abc"]⟩ "xy") ∧
    Inv ⟨[3], ["abc"]⟩ ∧
    (⟨[1, 3], ["a", "abc"]⟩ : SortedCollection).items.Pairwise
      (fun a b => keyFn a ≤ keyFn b) :=
  ⟨C5_sorted_collection_invariant.2.1 ⟨[1, 3], ["a", "abc"]⟩ "xy" (by decide),
   C5_sorted_collection_invariant.2.2.1 ⟨[1, 3], ["a", "abc"]⟩ "xy" (by decide),
   C5_sorted_collection_invariant.2.2.2.1 ⟨[1, 3], ["a", "abc"]⟩ "a" ⟨[3], ["abc"]⟩
     (by decide) (by decide),
   C5_sorted_collection_invariant.2.2.2.2 ⟨[1, 3], ["a", "abc"]⟩ (by decide)⟩

/-! ## Work distributor (pyletterpress.py lines 280-285)

Python:
```
block_size = 1000
for x in xrange(0, len(words), block_size):
    complete.put(x/len(words) * 100)
    pool.map_async(evaluator, [(word, letters, results) for word in words[x:x+block_size]])
```
`from __future__ import division` makes `/` true (rational) division, so the
samples live in `ℚ`.  `xrange(0, n, step)` enumerates `0, step, 2*step, ...`
strictly below `n`, i.e. `(n + step - 1) / step` values. -/

def block_size : Nat := 1000

/-- Number of iterations of `xrange(0, n, block_size)`. -/
def numBlocks (n : Nat) : Nat := (n + block_size - 1) / block_size

/-- The distributor loop: for each block start index `x`, the progress sample
`x / len(words) * 100` put on the progress channel just before the block
`words[x:x+block_size]` is submitted to the pool. -/
def distribute (words : List String) : List (ℚ × List String) :=
  (List.range' 0 (numBlocks words.length) block_size).map
    (fun (x : Nat) =>
      ((x : ℚ) / (words.length : ℚ) * 100, (words.drop x).take block_size))

/-- C6 counterexample: over 2000 words the second emitted sample is
`1000/2000 * 100 = 50`: the numerator is the block's *start index* (words
already dispatched), not the count of blocks already dispatched, which would
give `1/2000 * 100 = 0.05`. -/
theorem C6_counterexample :
    ((distribute (List.replicate 2000 "aa")).map Prod.fst)[1]? = some 50 ∧
    ((1 : ℚ) / 2000) * 100 ≠ 50 := by
  constructor
  · have hn : (List.replicate 2000 "aa").length = 2000 := List.length_replicate ..
    have hk : numBlocks (List.replicate 2000 "aa").length = 2 := by
      rw [hn]; norm_num [numBlocks, block_size]
    simp only [distribute, List.getElem?_map, hk]
    rw [List.getElem?_range' 0 block_size (by norm_num)]
    rw [hn]
    norm_num [block_size]
  · norm_num

/-- C6 amended: the distributor emits exactly one sample per block,
just before that block is submitted; the `i`-th sample's value is
`(block_size * i) / total_words * 100` — the block's start index, i.e. the
number of *words* already dispatched, divided by the word total — and it is
paired with the block `words[block_size*i : block_size*(i+1)]`. -/
theorem C6_progress_per_block (words : List String) (i : Nat)
    (h : i < numBlocks words.length) :
    (distribute words).length = numBlocks words.length ∧
    (distribute words)[i]? =
      some (((block_size * i : Nat) : ℚ) / (words.length : ℚ) * 100,
            (words.drop (block_size * i)).take block_size) := by
  constructor
  · simp [distribute]
  · simp only [distribute, List.getElem?_map]
    rw [List.getElem?_range' 0 block_size h]
    simp

theorem C6_progress_per_block_witness :
    (distribute ["ab"]).length = numBlocks (["ab"] : List String).length ∧
    (distribute ["ab"])[0]? =
      some (((block_size * 0 : Nat) : ℚ) / (((["ab"] : List String).length : Nat) : ℚ) * 100,
            ((["ab"] : List String).drop (block_size * 0)).take block_size) :=
  C6_progress_per_block ["ab"] 0 (by decide)

/-- C7: for a non-empty sorted dictionary, the progress samples, in
submission order, are strictly increasing (hence non-decreasing) and each
lies in the half-open interval `[0, 100)`. -/
theorem C7_progress_monotone_bounded (words : List String) (h : 0 < words.length) :
    ((distribute words).map Prod.fst).Pairwise (· < ·) ∧
    ∀ s ∈ (distribute words).map Prod.fst, 0 ≤ s ∧ s < 100 := by
  have hN : (0 : ℚ) < (words.length : ℚ) := by exact_mod_cast h
  have hmap : (distribute words).map Prod.fst =
      (List.range' 0 (numBlocks words.length) block_size).map
        (fun (x : Nat) => (x : ℚ) / (words.length : ℚ) * 100) := by
    simp [distribute, List.map_map, Function.comp]
  constructor
  · rw [hmap, List.pairwise_map]
    refine (List.pairwise_lt_range' 0 (numBlocks words.length) block_size
      (by norm_num [block_size])).imp ?_
    intro a b hab
    have hab' : (a : ℚ) < (b : ℚ) := by exact_mod_cast hab
    exact mul_lt_mul_of_pos_right ((div_lt_div_iff_of_pos_right hN).mpr hab') (by norm_num)
  · rw [hmap]
    intro s hs
    rcases List.mem_map.mp hs with ⟨x, hx, rfl⟩
    rcases List.mem_range'.mp hx with ⟨i, hi, rfl⟩
    have hxN : 0 + block_size * i < words.length := by
      simp only [numBlocks, block_size] at hi ⊢
      omega
    refine ⟨by positivity, ?_⟩
    have h1 : ((0 + block_size * i : Nat) : ℚ) < (words.length : ℚ) := by exact_mod_cast hxN
    calc ((0 + block_size * i : Nat) : ℚ) / (words.length : ℚ) * 100
        < 1 * 100 := mul_lt_mul_of_pos_right ((div_lt_one hN).mpr h1) (by norm_num)
      _ = 100 := one_mul 100

theorem C7_progress_monotone_bounded_witness :
    0 < (["ab"] : List String).length ∧
    (((distribute ["ab"]).map Prod.fst).Pairwise (· < ·) ∧
      ∀ s ∈ (distribute ["ab"]).map Prod.fst, 0 ≤ s ∧ s < 100) :=
  ⟨by decide, C7_progress_monotone_bounded ["ab"] (by decide)⟩

/-! ## Orchestrator termination polling (pyletterpress.py lines 292-298)

Python:
```
done = False
while not done:
    if len(best_words) > 1 and results.empty() and complete.empty():
        done = True
    time.sleep(0.01)
```
Each poll observes `(len(best_words), results.empty(), complete.empty())`;
a finite run of the loop is a finite list of such observations. -/

/-- The completion condition of one poll. -/
def doneCheck (bestLen : Nat) (resultsEmpty progressEmpty : Bool) : Bool :=
  decide (1 < bestLen) && resultsEmpty && progressEmpty

/-- Whether any poll of a finite run of the orchestrator loop declares
completion (sets `done`). -/
def pollLoop (obs : List (Nat × Bool × Bool)) : Bool :=
  obs.any (fun o => doneCheck o.1 o.2.1 o.2.2)

/-- C8: when the effective dictionary yields fewer than two matches, the
Ordered Top Collection never holds more than one entry, so every poll of the
orchestrator loop fails its completion condition (`len(best_words) > 1` is
required) and no finite number of polling iterations ever declares
completion: the loop polls forever and the final report line is never
reached, contradicting the claim that the pipeline still completes. -/
theorem C8_no_termination_with_few_matches (obs : List (Nat × Bool × Bool))
    (h : ∀ o ∈ obs, o.1 ≤ 1) : pollLoop obs = false := by
  rw [pollLoop, List.any_eq_false]
  intro o ho
  have hle := h o ho
  simp [doneCheck]
  intro h1
  omega

theorem C8_no_termination_with_few_matches_witness :
    (∀ o ∈ ([(0, true, true), (1, true, true)] : List (Nat × Bool × Bool)), o.1 ≤ 1) ∧
    pollLoop [(0, true, true), (1, true, true)] = false :=
  ⟨by decide, C8_no_termination_with_few_matches [(0, true, true), (1, true, true)] (by decide)⟩

/-! ## Command-line dispatch (pyletterpress.py lines 239-245 and 305-306)

Python:
```
if len(sys.argv) > 1:
    letters = sys.argv[1]
    if letters:
        ...pipeline...
else:
    log.critical('No letters supplied')
```
The inner `if letters:` has no `else`: a present-but-empty argument falls
through silently. -/

/-- What the `__main__` block does, by argument shape. -/
inductive MainOutcome where
  | noOutput
  | fatalNoLetters
  | pipeline (letters : List Char)
deriving DecidableEq

/-- The argument dispatch of the `__main__` block. -/
def mainDispatch (argv : List String) : MainOutcome :=
  if 1 < argv.length then
    let letters := argv.getD 1 ""
    if letters ≠ "" then MainOutcome.pipeline letters.toList
    else MainOutcome.noOutput
  else MainOutcome.fatalNoLetters

/-- C9: invoked with exactly one positional argument that is the empty
string, the program takes the truthiness branch `if letters:` with an empty
string and falls through its missing `else`: no fatal message (that branch
needs an absent argument) and no pipeline output — nothing at all. -/
theorem C9_empty_argument_silent :
    mainDispatch ["pyletterpress.py", ""] = MainOutcome.noOutput ∧
    mainDispatch ["pyletterpress.py"] = MainOutcome.fatalNoLetters := by
  decide

end Pyletterpress
